import Mathlib

/-!
The package dongle: block-cipher padding and modes of operation (cipher.go).

Shallow embedding of the padding helpers and block modes of `cipher.go`.

* A Go `[]byte` is a `List Byte`, a byte being a number below 256.
* A Go `int` is an `Int`; the conversion `byte(n)` keeps the low eight bits.
* A call that ends in a run-time panic (index or slice bounds out of range,
  division by zero, negative repeat count) produces no value: the embedded
  function returns `none`.  The Go functions have no `error` result, so
  `some bs` (normal return of `bs`) and `none` (panic) are the only outcomes.
* `append(src, padding...)` is list concatenation; aliasing of the backing
  array of `src` is not modelled, and the capacity of a slice is its length.
* The receiver `c` is an argument only of the methods that read it (the IV
  of the CBC, CFB, OFB and CTR methods); the padding methods and ECB do not
  use it.
-/

namespace Dongle

/-- A byte: a natural number below 256. -/
abbrev Byte := Fin 256

/-- Go conversion `byte(n)` of an `int`: the low eight bits of `n`. -/
def byteOfInt (n : Int) : Byte :=
  ⟨(n % 256).toNat, by omega⟩

/-- Go conversion `int(b)` of a byte. -/
def intOfByte (b : Byte) : Int := (b.val : Int)

/-- The receiver of every method of `cipher.go` (struct `Cipher`). -/
structure Cipher where
  mode : String
  padding : String
  key : List Byte
  iv : List Byte
  deriving Repr

/-- NewCipher: mode CBC and padding PKCS7, no key and no IV. -/
def NewCipher : Cipher :=
  { mode := "cbc", padding := "pkcs7", key := [], iv := [] }

/-- The Go call `bytes.Repeat([]byte{b}, count)`: panics on a negative count. -/
def bytesRepeat (b : Byte) (count : Int) : Option (List Byte) :=
  if count < 0 then none else some (List.replicate count.toNat b)

/-- The Go expression `len(src) % size` on `int`s: panics when `size` is zero,
truncated remainder otherwise. -/
def goMod (a size : Int) : Option Int :=
  if size = 0 then none else some (Int.tmod a size)

/-- ZeroPadding (cipher.go 88-91):
`padding := bytes.Repeat([]byte{byte(0)}, size-len(src)%size)`,
`return append(src, padding...)`. -/
def ZeroPadding (src : List Byte) (size : Int) : Option (List Byte) :=
  match goMod (src.length : Int) size with
  | none => none
  | some r =>
    match bytesRepeat (byteOfInt 0) (size - r) with
    | none => none
    | some padding => some (src ++ padding)

/-- The loop of ZeroUnPadding (cipher.go 96-100), the loop variable `i` being
`k - 1`: at `k = 0` the index `src[-1]` is out of range and the call panics;
otherwise `src[i]` is read, a non-zero byte returns `src[:i+1]`, a zero byte
continues with `i - 1`.  The loop has no other exit. -/
def zeroUnPaddingLoop (src : List Byte) : Nat → Option (List Byte)
  | 0 => none
  | k + 1 =>
    match src[k]? with
    | none => none
    | some b => if b ≠ 0 then some (src.take (k + 1)) else zeroUnPaddingLoop src k

/-- ZeroUnPadding (cipher.go 95-101): the loop started at `i = len(src) - 1`. -/
def ZeroUnPadding (src : List Byte) : Option (List Byte) :=
  zeroUnPaddingLoop src src.length

/-- PKCS7Padding (cipher.go 117-121):
`paddingCount := size - len(src)%size`,
`paddingText := bytes.Repeat([]byte{byte(paddingCount)}, paddingCount)`,
`return append(src, paddingText...)`. -/
def PKCS7Padding (src : List Byte) (size : Int) : Option (List Byte) :=
  match goMod (src.length : Int) size with
  | none => none
  | some r =>
    let paddingCount := size - r
    match bytesRepeat (byteOfInt paddingCount) paddingCount with
    | none => none
    | some paddingText => some (src ++ paddingText)

/-- PKCS7UnPadding (cipher.go 125-128):
`trim := len(src) - int(src[len(src)-1])`, `return src[:trim]`.
The index panics on an empty `src`, the slice panics on a negative `trim`. -/
def PKCS7UnPadding (src : List Byte) : Option (List Byte) :=
  match src[src.length - 1]? with
  | none => none
  | some v =>
    let trim : Int := (src.length : Int) - intOfByte v
    if trim < 0 then none else some (src.take trim.toNat)

/-- PKCS5Padding (cipher.go 105-107): `return c.PKCS7Padding(src, 8)`. -/
def PKCS5Padding (src : List Byte) : Option (List Byte) :=
  PKCS7Padding src 8

/-- PKCS5UnPadding (cipher.go 111-113): `return c.PKCS7UnPadding(src)`. -/
def PKCS5UnPadding (src : List Byte) : Option (List Byte) :=
  PKCS7UnPadding src

/-- The interface `cipher.Block` of the Go standard library, taken as a
parameter: `BlockSize()`, and `Encrypt(dst, src)` / `Decrypt(dst, src)` as
functions from the block read to the block written.  The two length fields
are the interface contract: one block in, one block out. -/
structure Block where
  BlockSize : Nat
  Encrypt : List Byte → List Byte
  Decrypt : List Byte → List Byte
  Encrypt_length : ∀ b : List Byte, b.length = BlockSize → (Encrypt b).length = BlockSize
  Decrypt_length : ∀ b : List Byte, b.length = BlockSize → (Decrypt b).length = BlockSize

/-- The loop shared by ECBEncrypt and ECBDecrypt (cipher.go 183-187 and
196-200), `f` being `block.Encrypt` or `block.Decrypt`:
`for len(src) > 0 { f(out, src[:size]); src = src[size:]; out = out[size:] }`.
A remaining input shorter than `size` panics on `src[size:]`.  Every pass is
counted against `fuel`; with `size = 0` the Go loop never ends on a non-empty
input, and the embedding then runs out of fuel and gives no value. -/
def ecbLoop (f : List Byte → List Byte) (size : Nat) : Nat → List Byte → Option (List Byte)
  | 0, src => if src.length = 0 then some [] else none
  | fuel + 1, src =>
    if src.length = 0 then some []
    else if src.length < size then none
    else
      match ecbLoop f size fuel (src.drop size) with
      | none => none
      | some rest => some (f (src.take size) ++ rest)

/-- ECBEncrypt (cipher.go 180-189): `dst` is filled block by block.  With a
block size of at least one the loop makes at most `len(src)` passes. -/
def ECBEncrypt (src : List Byte) (block : Block) : Option (List Byte) :=
  ecbLoop block.Encrypt block.BlockSize src.length src

/-- ECBDecrypt (cipher.go 193-202). -/
def ECBDecrypt (src : List Byte) (block : Block) : Option (List Byte) :=
  ecbLoop block.Decrypt block.BlockSize src.length src

/-- Byte-wise exclusive or. -/
def xorByte (a b : Byte) : Byte :=
  ⟨(a.val ^^^ b.val) % 256, Nat.mod_lt _ (by decide)⟩

/-- Exclusive or of two byte strings, up to the shorter one. -/
def xorBytes (a b : List Byte) : List Byte :=
  List.zipWith xorByte a b

/-- Modelled from the spec: the CBC encrypter of the Go library package
`crypto/cipher` (`NewCBCEncrypter(...).CryptBlocks`), which is not part of
the repository.  Section 4.2: each plaintext block is XORed with the previous
ciphertext block (the IV for the first block) and then single-block
encrypted.  `n` is the number of blocks, `prev` the chaining value. -/
def cbcEncryptBlocks (block : Block) : Nat → List Byte → List Byte → List Byte
  | 0, _, _ => []
  | n + 1, prev, src =>
    let c := block.Encrypt (xorBytes (src.take block.BlockSize) prev)
    c ++ cbcEncryptBlocks block n c (src.drop block.BlockSize)

/-- Modelled from the spec: the CBC decrypter of the Go library package
`crypto/cipher` (`NewCBCDecrypter(...).CryptBlocks`), which is not part of
the repository.  Section 4.2: each ciphertext block is single-block decrypted
and then XORed with the previous ciphertext block (the IV for the first). -/
def cbcDecryptBlocks (block : Block) : Nat → List Byte → List Byte → List Byte
  | 0, _, _ => []
  | n + 1, prev, src =>
    let c := src.take block.BlockSize
    xorBytes (block.Decrypt c) prev ++ cbcDecryptBlocks block n c (src.drop block.BlockSize)

/-- Modelled from the spec: the checks of the Go library before CBC runs,
which are not part of the repository.  The slice `c.iv[:block.BlockSize()]`
of cipher.go panics when the IV is shorter than a block, and `CryptBlocks`
panics on an input that is not a whole number of blocks (section 4.2: the
input length must be a multiple of the block size). -/
def cbcChecked (iv src : List Byte) (size : Nat) : Bool :=
  decide (size ≤ iv.length) && decide (0 < size) && decide (src.length % size = 0)

/-- CBCEncrypt (cipher.go 132-136): `dst = make([]byte, len(src))`,
`cipher.NewCBCEncrypter(block, c.iv[:block.BlockSize()]).CryptBlocks(dst, src)`. -/
def CBCEncrypt (c : Cipher) (src : List Byte) (block : Block) : Option (List Byte) :=
  if cbcChecked c.iv src block.BlockSize then
    some (cbcEncryptBlocks block (src.length / block.BlockSize)
      (c.iv.take block.BlockSize) src)
  else none

/-- CBCDecrypt (cipher.go 140-144): `dst = make([]byte, len(src))`,
`cipher.NewCBCDecrypter(block, c.iv[:block.BlockSize()]).CryptBlocks(dst, src)`. -/
def CBCDecrypt (c : Cipher) (src : List Byte) (block : Block) : Option (List Byte) :=
  if cbcChecked c.iv src block.BlockSize then
    some (cbcDecryptBlocks block (src.length / block.BlockSize)
      (c.iv.take block.BlockSize) src)
  else none

/-- A toy block cipher of block size `n`, used for concrete evaluation:
every byte is XORed with `0xA5` and the block is reversed. -/
def toyBlock (n : Nat) : Block where
  BlockSize := n
  Encrypt := fun b => (b.map (xorByte 0xA5)).reverse
  Decrypt := fun b => (b.reverse).map (xorByte 0xA5)
  Encrypt_length := by intro b h; simp [h]
  Decrypt_length := by intro b h; simp [h]

/-- The plaintext of the CBC scenario: the 11 bytes of "hello world". -/
def helloWorld : List Byte :=
  [104, 101, 108, 108, 111, 32, 119, 111, 114, 108, 100]

/-- The IV of the CBC scenario: the 16 bytes of "fedcba9876543210". -/
def scenarioIV : List Byte :=
  [102, 101, 100, 99, 98, 97, 57, 56, 55, 54, 53, 52, 51, 50, 49, 48]

/-- A cipher value configured as in the CBC scenario. -/
def scenarioCipher : Cipher :=
  { mode := "cbc", padding := "pkcs7", key := [], iv := scenarioIV }

/-- The Go built-in `copy(dst, src)`: the new contents of `dst`, whose first
`min(len(dst), len(src))` bytes are taken from `src`. -/
def goCopy (dst src : List Byte) : List Byte :=
  src.take dst.length ++ dst.drop src.length

/-- Modelled from the spec: the CFB stream of the Go library package
`crypto/cipher` (`NewCFBEncrypter` / `NewCFBDecrypter`, `XORKeyStream`),
which is not part of the repository.  Section 4.2: the keystream block is the
single-block encryption of the register `next`, seeded with the IV; the data
block is XORed with it (a trailing partial block with its keystream prefix
only); the ciphertext is fed back into the register, which is the output
when encrypting and the input when decrypting.  One pass per block, counted
against `fuel`. -/
def cfbStream (block : Block) (decrypt : Bool) : Nat → List Byte → List Byte → List Byte
  | 0, _, _ => []
  | fuel + 1, next, src =>
    if src.length = 0 then []
    else
      let out := block.Encrypt next
      let inBlock := src.take block.BlockSize
      let outBlock := xorBytes inBlock out
      outBlock ++ cfbStream block decrypt fuel
        (goCopy next (if decrypt then inBlock else outBlock)) (src.drop block.BlockSize)

/-- Modelled from the spec: a stream that XORs the data with the keystream
`Encrypt(reg)`, the register moving on by `advance` independently of the
data (section 4.2, OFB and CTR).  A trailing partial block is XORed with its
keystream prefix only.  One pass per block, counted against `fuel`. -/
def keyStreamXor (block : Block) (advance : List Byte → List Byte) :
    Nat → List Byte → List Byte → List Byte
  | 0, _, _ => []
  | fuel + 1, reg, src =>
    if src.length = 0 then []
    else
      xorBytes (src.take block.BlockSize) (block.Encrypt reg)
        ++ keyStreamXor block advance fuel (advance reg) (src.drop block.BlockSize)

/-- Adding one to a little-endian counter: the first byte is incremented and
the carry moves on while the incremented byte wraps to zero. -/
def incrementLE : List Byte → List Byte
  | [] => []
  | b :: rest => if b + 1 ≠ 0 then (b + 1) :: rest else (b + 1) :: incrementLE rest

/-- Modelled from the spec: the counter step of the CTR stream of the Go
library package `crypto/cipher`, which is not part of the repository.
Section 4.2: a monotonically incrementing counter seeded from the IV; the
counter is a big-endian number of block-size bytes and wraps around. -/
def incrementCounter (ctr : List Byte) : List Byte :=
  (incrementLE ctr.reverse).reverse

/-- Modelled from the spec: the checks before a stream mode runs.  The slice
`c.iv[:block.BlockSize()]` of cipher.go panics when the IV is shorter than a
block; a block size of zero gives no value. -/
def streamChecked (iv : List Byte) (size : Nat) : Bool :=
  decide (size ≤ iv.length) && decide (0 < size)

/-- CFBEncrypt (cipher.go 148-152): `dst = make([]byte, len(src))`,
`cipher.NewCFBEncrypter(block, c.iv[:block.BlockSize()]).XORKeyStream(dst, src)`. -/
def CFBEncrypt (c : Cipher) (src : List Byte) (block : Block) : Option (List Byte) :=
  if streamChecked c.iv block.BlockSize then
    some (cfbStream block false src.length (c.iv.take block.BlockSize) src)
  else none

/-- CFBDecrypt (cipher.go 156-160): `dst = make([]byte, len(src))`,
`cipher.NewCFBDecrypter(block, c.iv[:block.BlockSize()]).XORKeyStream(dst, src)`. -/
def CFBDecrypt (c : Cipher) (src : List Byte) (block : Block) : Option (List Byte) :=
  if streamChecked c.iv block.BlockSize then
    some (cfbStream block true src.length (c.iv.take block.BlockSize) src)
  else none

/-- CTREncrypt (cipher.go 164-168): `dst = make([]byte, len(src))`,
`cipher.NewCTR(block, c.iv[:block.BlockSize()]).XORKeyStream(dst, src)`. -/
def CTREncrypt (c : Cipher) (src : List Byte) (block : Block) : Option (List Byte) :=
  if streamChecked c.iv block.BlockSize then
    some (keyStreamXor block incrementCounter src.length (c.iv.take block.BlockSize) src)
  else none

/-- CTRDecrypt (cipher.go 172-176): the same body as CTREncrypt. -/
def CTRDecrypt (c : Cipher) (src : List Byte) (block : Block) : Option (List Byte) :=
  if streamChecked c.iv block.BlockSize then
    some (keyStreamXor block incrementCounter src.length (c.iv.take block.BlockSize) src)
  else none

/-- OFBEncrypt (cipher.go 206-210): `dst = make([]byte, len(src))`,
`cipher.NewOFB(block, c.iv[:block.BlockSize()]).XORKeyStream(dst, src)`.  The
OFB register is fed by its own prior output: it moves on by `Encrypt`. -/
def OFBEncrypt (c : Cipher) (src : List Byte) (block : Block) : Option (List Byte) :=
  if streamChecked c.iv block.BlockSize then
    some (keyStreamXor block block.Encrypt src.length (c.iv.take block.BlockSize) src)
  else none

/-- OFBDecrypt (cipher.go 214-218): the same body as OFBEncrypt. -/
def OFBDecrypt (c : Cipher) (src : List Byte) (block : Block) : Option (List Byte) :=
  if streamChecked c.iv block.BlockSize then
    some (keyStreamXor block block.Encrypt src.length (c.iv.take block.BlockSize) src)
  else none

/-- A toy block cipher of block size `n` whose `Encrypt` is not invertible
(every byte is doubled, so `0x00` and `0x80` collide) and whose `Decrypt`
does not undo it. -/
def lossyBlock (n : Nat) : Block where
  BlockSize := n
  Encrypt := fun b => b.map (fun x => x + x)
  Decrypt := fun b => b
  Encrypt_length := by intro b h; simp [h]
  Decrypt_length := by intro b h; simp [h]

/-- The input of the stream scenario: 13 bytes. -/
def thirteenBytes : List Byte :=
  [1, 2, 3, 4, 5, 6, 7, 8, 9, 10, 11, 12, 0]

/-- The input of the misalignment scenario: 10 bytes. -/
def tenBytes : List Byte :=
  [1, 2, 3, 4, 5, 6, 7, 8, 9, 10]

/-- A cipher value whose IV has 17 bytes: the scenario IV and one more byte. -/
def longIVCipher : Cipher :=
  { mode := "cbc", padding := "pkcs7", key := [], iv := scenarioIV ++ [255] }

/-! ## Arithmetic of the pad count -/

theorem goMod_natCast (a n : Nat) (h : 1 ≤ n) :
    goMod (a : Int) (n : Int) = some ((a % n : Nat) : Int) := by
  unfold goMod
  rw [if_neg (by omega)]
  rw [Int.tmod_eq_emod (by omega) (by omega)]
  norm_cast

theorem byteOfInt_natCast (k : Nat) (h : k ≤ 255) : (byteOfInt (k : Int)).val = k := by
  unfold byteOfInt
  simp only
  omega

/-- The padded length is a positive number of whole blocks. -/
theorem padded_length_blocks (len n : Nat) (h : 1 ≤ n) :
    ∃ q : Nat, len + (n - len % n) = (q + 1) * n := by
  refine ⟨len / n, ?_⟩
  have hlt : len % n < n := Nat.mod_lt _ (by omega)
  have hdm : n * (len / n) + len % n = len := Nat.div_add_mod len n
  have hmul : (len / n + 1) * n = n * (len / n) + n := by ring
  omega

/-! ## Padding: closed forms -/

/-- Closed form of PKCS7Padding for a positive block size. -/
theorem PKCS7Padding_natCast (src : List Byte) (n : Nat) (h : 1 ≤ n) :
    PKCS7Padding src (n : Int)
      = some (src ++ List.replicate (n - src.length % n)
          (byteOfInt ((n - src.length % n : Nat) : Int))) := by
  have hlt : src.length % n < n := Nat.mod_lt _ (by omega)
  unfold PKCS7Padding
  rw [goMod_natCast _ _ h]
  have e : ((n : Int) - ((src.length % n : Nat) : Int)) = ((n - src.length % n : Nat) : Int) := by
    omega
  simp only [e, bytesRepeat]
  rw [if_neg (by omega)]
  simp

/-- Closed form of ZeroPadding for a positive block size. -/
theorem ZeroPadding_natCast (src : List Byte) (n : Nat) (h : 1 ≤ n) :
    ZeroPadding src (n : Int)
      = some (src ++ List.replicate (n - src.length % n) (0 : Byte)) := by
  have hlt : src.length % n < n := Nat.mod_lt _ (by omega)
  unfold ZeroPadding
  rw [goMod_natCast _ _ h]
  have e : ((n : Int) - ((src.length % n : Nat) : Int)) = ((n - src.length % n : Nat) : Int) := by
    omega
  simp only [e, bytesRepeat]
  rw [if_neg (by omega)]
  have z : byteOfInt 0 = (0 : Byte) := by decide
  simp [z]

/-! ## Unpadding -/

/-- What PKCS7UnPadding does on a buffer whose last byte is `v`. -/
theorem PKCS7UnPadding_of_last (src : List Byte) (v : Byte) (hlast : src.getLast? = some v) :
    PKCS7UnPadding src
      = if src.length < v.val then none else some (src.take (src.length - v.val)) := by
  unfold PKCS7UnPadding
  rw [List.getLast?_eq_getElem?] at hlast
  rw [hlast]
  simp only [intOfByte]
  by_cases h : src.length < v.val
  · rw [if_pos (by omega), if_pos h]
  · rw [if_neg (by omega), if_neg h]
    have : ((src.length : Int) - (v.val : Int)).toNat = src.length - v.val := by omega
    rw [this]

/-- Unpadding a buffer that ends in `k` copies of a byte of value `k`. -/
theorem PKCS7UnPadding_append_replicate (src : List Byte) (k : Nat) (b : Byte)
    (hk : 1 ≤ k) (hb : b.val = k) :
    PKCS7UnPadding (src ++ List.replicate k b) = some src := by
  have hlast : (src ++ List.replicate k b).getLast? = some b := by
    obtain ⟨j, rfl⟩ : ∃ j, k = j + 1 := ⟨k - 1, by omega⟩
    rw [List.replicate_succ', ← List.append_assoc, List.getLast?_concat]
  rw [PKCS7UnPadding_of_last _ _ hlast]
  simp [hb]

/-- The backward scan over a buffer of zero bytes reaches index `-1`. -/
theorem zeroUnPaddingLoop_zeros (n : Nat) :
    ∀ k : Nat, k ≤ n → zeroUnPaddingLoop (List.replicate n (0 : Byte)) k = none := by
  intro k
  induction k with
  | zero => intro _; rfl
  | succ k ih =>
    intro hk
    unfold zeroUnPaddingLoop
    rw [List.getElem?_replicate, if_pos (by omega)]
    simp only [ne_eq, not_true_eq_false, if_false]
    exact ih (by omega)

/-- The backward scan skips the appended zero bytes and stops at the last
byte of `p` when that byte is not zero. -/
theorem zeroUnPaddingLoop_append (p : List Byte) (v : Byte) (m : Nat)
    (hlast : p.getLast? = some v) (hv : v ≠ 0) :
    ∀ j : Nat, j ≤ m →
      zeroUnPaddingLoop (p ++ List.replicate m (0 : Byte)) (p.length + j) = some p := by
  have hne : p ≠ [] := by
    intro h
    rw [h] at hlast
    simp at hlast
  have hpos : 0 < p.length := List.length_pos.mpr hne
  intro j
  induction j with
  | zero =>
    intro _
    obtain ⟨k, hk⟩ : ∃ k, p.length = k + 1 := ⟨p.length - 1, by omega⟩
    rw [Nat.add_zero, hk]
    unfold zeroUnPaddingLoop
    rw [List.getLast?_eq_getElem?] at hlast
    have hidx : (p ++ List.replicate m (0 : Byte))[k]? = some v := by
      rw [List.getElem?_append_left (by omega)]
      have : p.length - 1 = k := by omega
      rw [← this]
      exact hlast
    rw [hidx]
    simp only [ne_eq, hv, not_false_eq_true, if_true]
    rw [← hk]
    simp
  | succ j ih =>
    intro hj
    rw [← Nat.add_assoc]
    unfold zeroUnPaddingLoop
    have hidx : (p ++ List.replicate m (0 : Byte))[p.length + j]? = some 0 := by
      rw [List.getElem?_append_right (by omega)]
      rw [List.getElem?_replicate, if_pos (by omega)]
    rw [hidx]
    simp only [ne_eq, not_true_eq_false, if_false]
    exact ih (by omega)

/-! ## The ECB loop -/

/-- On a whole number of blocks the ECB loop returns, and the output is as
long as the input. -/
theorem ecbLoop_length (f : List Byte → List Byte) (size : Nat) (hsize : 1 ≤ size)
    (hf : ∀ b : List Byte, b.length = size → (f b).length = size) :
    ∀ (k fuel : Nat) (src : List Byte), src.length = k * size → k ≤ fuel →
      ∃ out, ecbLoop f size fuel src = some out ∧ out.length = src.length := by
  intro k
  induction k with
  | zero =>
    intro fuel src hlen _
    have h0 : src.length = 0 := by simpa using hlen
    refine ⟨[], ?_, by simp [h0]⟩
    cases fuel <;> simp [ecbLoop, h0]
  | succ k ih =>
    intro fuel src hlen hfuel
    obtain ⟨fuel, rfl⟩ : ∃ m, fuel = m + 1 := ⟨fuel - 1, by omega⟩
    have hge : size ≤ src.length := by
      rw [hlen, Nat.succ_mul]; omega
    have hdrop : (src.drop size).length = k * size := by
      rw [List.length_drop, hlen, Nat.succ_mul]; omega
    obtain ⟨rest, hrest, hrlen⟩ := ih fuel (src.drop size) hdrop (by omega)
    have htake : (src.take size).length = size := by
      rw [List.length_take]; omega
    refine ⟨f (src.take size) ++ rest, ?_, ?_⟩
    · unfold ecbLoop
      rw [if_neg (by omega), if_neg (by omega), hrest]
    · rw [List.length_append, hf _ htake, hrlen, hdrop, hlen, Nat.succ_mul]; omega

/-- Running the loop with `g` over the output of the loop with `f` gives the
input back, when `g` undoes `f` on every block. -/
theorem ecbLoop_inverse (f g : List Byte → List Byte) (size : Nat) (hsize : 1 ≤ size)
    (hf : ∀ b : List Byte, b.length = size → (f b).length = size)
    (hinv : ∀ b : List Byte, b.length = size → g (f b) = b) :
    ∀ (k fuel fuel2 : Nat) (src : List Byte), src.length = k * size → k ≤ fuel → k ≤ fuel2 →
      ∃ out, ecbLoop f size fuel src = some out ∧ ecbLoop g size fuel2 out = some src := by
  intro k
  induction k with
  | zero =>
    intro fuel fuel2 src hlen _ _
    have h0 : src = [] := by
      apply List.eq_nil_of_length_eq_zero
      simpa using hlen
    subst h0
    refine ⟨[], ?_, ?_⟩
    · cases fuel <;> simp [ecbLoop]
    · cases fuel2 <;> simp [ecbLoop]
  | succ k ih =>
    intro fuel fuel2 src hlen hfuel hfuel2
    obtain ⟨fuel, rfl⟩ : ∃ m, fuel = m + 1 := ⟨fuel - 1, by omega⟩
    obtain ⟨fuel2, rfl⟩ : ∃ m, fuel2 = m + 1 := ⟨fuel2 - 1, by omega⟩
    have hge : size ≤ src.length := by
      rw [hlen, Nat.succ_mul]; omega
    have hdrop : (src.drop size).length = k * size := by
      rw [List.length_drop, hlen, Nat.succ_mul]; omega
    obtain ⟨rest, hrest, hback⟩ := ih fuel fuel2 (src.drop size) hdrop (by omega) (by omega)
    have htake : (src.take size).length = size := by
      rw [List.length_take]; omega
    have hflen : (f (src.take size)).length = size := hf _ htake
    refine ⟨f (src.take size) ++ rest, ?_, ?_⟩
    · unfold ecbLoop
      rw [if_neg (by omega), if_neg (by omega), hrest]
    · unfold ecbLoop
      have hl : (f (src.take size) ++ rest).length = size + rest.length := by
        rw [List.length_append, hflen]
      rw [if_neg (by omega), if_neg (by omega)]
      have hd : (f (src.take size) ++ rest).drop size = rest := List.drop_left' hflen
      have ht : (f (src.take size) ++ rest).take size = f (src.take size) :=
        List.take_left' hflen
      rw [hd, ht, hback, hinv _ htake]
      simp only [List.take_append_drop]

/-! ## Exclusive or and CBC chaining -/

theorem xorByte_cancel (a b : Byte) : xorByte (xorByte a b) b = a := by
  apply Fin.ext
  have hlt : a.val ^^^ b.val < 256 :=
    @Nat.xor_lt_two_pow a.val b.val 8 a.isLt b.isLt
  simp only [xorByte]
  rw [Nat.mod_eq_of_lt hlt, Nat.xor_assoc, Nat.xor_self, Nat.xor_zero]
  exact Nat.mod_eq_of_lt a.isLt

theorem xorBytes_length (a b : List Byte) (h : a.length = b.length) :
    (xorBytes a b).length = a.length := by
  simp [xorBytes, h]

theorem xorBytes_cancel : ∀ (a b : List Byte), a.length ≤ b.length →
    xorBytes (xorBytes a b) b = a
  | [], _, _ => by simp [xorBytes]
  | x :: a, [], h => by simp at h
  | x :: a, y :: b, h => by
    have ih := xorBytes_cancel a b (by simpa using h)
    simp only [xorBytes, List.zipWith_cons_cons] at ih ⊢
    rw [xorByte_cancel, ih]

/-- CBC decryption undoes CBC encryption on `n` whole blocks, and the
ciphertext is `n` blocks long. -/
theorem cbcBlocks_inverse (B : Block)
    (hinv : ∀ b : List Byte, b.length = B.BlockSize → B.Decrypt (B.Encrypt b) = b) :
    ∀ (n : Nat) (prev src : List Byte), prev.length = B.BlockSize →
      src.length = n * B.BlockSize →
      (cbcEncryptBlocks B n prev src).length = n * B.BlockSize ∧
      cbcDecryptBlocks B n prev (cbcEncryptBlocks B n prev src) = src := by
  intro n
  induction n with
  | zero =>
    intro prev src _ hlen
    have h0 : src = [] := by
      apply List.eq_nil_of_length_eq_zero
      simpa using hlen
    subst h0
    simp [cbcEncryptBlocks, cbcDecryptBlocks]
  | succ n ih =>
    intro prev src hprev hlen
    have hge : B.BlockSize ≤ src.length := by
      rw [hlen, Nat.succ_mul]; omega
    have hdrop : (src.drop B.BlockSize).length = n * B.BlockSize := by
      rw [List.length_drop, hlen, Nat.succ_mul]; omega
    have htake : (src.take B.BlockSize).length = B.BlockSize := by
      rw [List.length_take]; omega
    have hx : (xorBytes (src.take B.BlockSize) prev).length = B.BlockSize := by
      rw [xorBytes_length _ _ (by rw [htake, hprev]), htake]
    have hc : (B.Encrypt (xorBytes (src.take B.BlockSize) prev)).length = B.BlockSize :=
      B.Encrypt_length _ hx
    obtain ⟨ihlen, ihinv⟩ := ih (B.Encrypt (xorBytes (src.take B.BlockSize) prev))
      (src.drop B.BlockSize) hc hdrop
    constructor
    · simp only [cbcEncryptBlocks]
      rw [List.length_append, hc, ihlen, Nat.succ_mul]; omega
    · simp only [cbcEncryptBlocks, cbcDecryptBlocks]
      have ht : ∀ rest : List Byte,
          (B.Encrypt (xorBytes (src.take B.BlockSize) prev) ++ rest).take B.BlockSize
            = B.Encrypt (xorBytes (src.take B.BlockSize) prev) := by
        intro rest
        exact List.take_left' hc
      have hd : ∀ rest : List Byte,
          (B.Encrypt (xorBytes (src.take B.BlockSize) prev) ++ rest).drop B.BlockSize
            = rest := by
        intro rest
        exact List.drop_left' hc
      rw [ht, hd, ihinv, hinv _ hx, xorBytes_cancel _ _ (by rw [htake, hprev]),
        List.take_append_drop]

theorem toyBlock_inverse (n : Nat) (b : List Byte) :
    (toyBlock n).Decrypt ((toyBlock n).Encrypt b) = b := by
  simp only [toyBlock, List.reverse_reverse, List.map_map]
  have : (xorByte 0xA5 ∘ xorByte 0xA5) = id := by
    funext x
    apply Fin.ext
    have hlt : (165 : Nat) ^^^ x.val < 256 :=
      @Nat.xor_lt_two_pow 165 x.val 8 (by decide) x.isLt
    simp only [Function.comp, xorByte, id]
    show (165 ^^^ (165 ^^^ x.val) % 256) % 256 = x.val
    rw [Nat.mod_eq_of_lt hlt, ← Nat.xor_assoc, Nat.xor_self, Nat.zero_xor]
    exact Nat.mod_eq_of_lt x.isLt
  rw [this, List.map_id]

/-! ## Claims -/

/-- C1. PKCS7 round trip: for every byte sequence `src`, the empty one
included, and every block size with `1 ≤ size ≤ 255`, unpadding the padded
buffer returns normally and gives `src` back. -/
theorem PKCS7_roundtrip (src : List Byte) (size : Int) (h1 : 1 ≤ size) (h2 : size ≤ 255) :
    (PKCS7Padding src size).bind PKCS7UnPadding = some src := by
  obtain ⟨n, rfl⟩ := Int.eq_ofNat_of_zero_le (by omega : 0 ≤ size)
  have hn : 1 ≤ n := by omega
  have hlt : src.length % n < n := Nat.mod_lt _ (by omega)
  rw [PKCS7Padding_natCast src n hn]
  simp only [Option.some_bind]
  apply PKCS7UnPadding_append_replicate
  · omega
  · apply byteOfInt_natCast
    omega

/-- C1 at a concrete input: three bytes, block size 4; and the empty input,
block size 255. -/
theorem PKCS7_roundtrip_witness :
    ((1 : Int) ≤ 4 ∧ (4 : Int) ≤ 255 ∧
      (PKCS7Padding [7, 0, 255] 4).bind PKCS7UnPadding = some [7, 0, 255]) ∧
    (PKCS7Padding [] 255).bind PKCS7UnPadding = some [] :=
  ⟨⟨by decide, by decide, PKCS7_roundtrip [7, 0, 255] 4 (by decide) (by decide)⟩,
    PKCS7_roundtrip [] 255 (by decide) (by decide)⟩

/-- C2. CBC with PKCS7 round trip: for every block cipher of block size
`1 ≤ bs ≤ 255` whose `Decrypt` undoes `Encrypt` on every block of `bs` bytes,
every IV of `bs` bytes and every plaintext `p` of any length, padding,
CBC-encrypting, CBC-decrypting and unpadding all return normally and give
`p` back. -/
theorem CBC_PKCS7_decrypt_encrypt (c : Cipher) (B : Block) (p : List Byte)
    (hbs1 : 1 ≤ B.BlockSize) (hbs2 : B.BlockSize ≤ 255)
    (hinv : ∀ b : List Byte, b.length = B.BlockSize → B.Decrypt (B.Encrypt b) = b)
    (hiv : c.iv.length = B.BlockSize) :
    (((PKCS7Padding p (B.BlockSize : Int)).bind (fun padded => CBCEncrypt c padded B)).bind
      (fun ct => CBCDecrypt c ct B)).bind PKCS7UnPadding = some p := by
  have hlt : p.length % B.BlockSize < B.BlockSize := Nat.mod_lt _ (by omega)
  have hk1 : 1 ≤ B.BlockSize - p.length % B.BlockSize := by omega
  have hk2 : B.BlockSize - p.length % B.BlockSize ≤ 255 := by omega
  obtain ⟨q, hq⟩ := padded_length_blocks p.length B.BlockSize hbs1
  rw [PKCS7Padding_natCast p _ hbs1]
  simp only [Option.some_bind]
  generalize hpad : p ++ List.replicate (B.BlockSize - p.length % B.BlockSize)
    (byteOfInt ((B.BlockSize - p.length % B.BlockSize : Nat) : Int)) = padded
  have hplen : padded.length = (q + 1) * B.BlockSize := by
    rw [← hpad, List.length_append, List.length_replicate, hq]
  have hivt : (c.iv.take B.BlockSize).length = B.BlockSize := by
    rw [List.length_take, hiv]; omega
  have hdiv : (q + 1) * B.BlockSize / B.BlockSize = q + 1 :=
    Nat.mul_div_cancel _ (by omega)
  have hmod : (q + 1) * B.BlockSize % B.BlockSize = 0 := Nat.mul_mod_left _ _
  obtain ⟨hclen, hback⟩ := cbcBlocks_inverse B hinv (q + 1) (c.iv.take B.BlockSize)
    padded hivt hplen
  have hchk1 : cbcChecked c.iv padded B.BlockSize = true := by
    unfold cbcChecked
    rw [hplen, hmod, hiv]
    simp only [le_refl, decide_True, Bool.true_and, Bool.and_true, decide_eq_true_eq]
    exact hbs1
  have hchk2 : cbcChecked c.iv
      (cbcEncryptBlocks B (q + 1) (c.iv.take B.BlockSize) padded) B.BlockSize = true := by
    unfold cbcChecked
    rw [hclen, hmod, hiv]
    simp only [le_refl, decide_True, Bool.true_and, Bool.and_true, decide_eq_true_eq]
    exact hbs1
  unfold CBCEncrypt
  rw [if_pos hchk1, hplen, hdiv]
  simp only [Option.some_bind]
  unfold CBCDecrypt
  rw [if_pos hchk2, hclen, hdiv, hback]
  simp only [Option.some_bind]
  rw [← hpad]
  exact PKCS7UnPadding_append_replicate _ _ _ hk1 (byteOfInt_natCast _ hk2)

/-- C2 at the scenario input: a 16-byte block cipher, a 16-byte IV and the
plaintext "hello world". -/
theorem CBC_PKCS7_decrypt_encrypt_witness :
    1 ≤ (toyBlock 16).BlockSize ∧ (toyBlock 16).BlockSize ≤ 255 ∧
    scenarioCipher.iv.length = (toyBlock 16).BlockSize ∧
    (((PKCS7Padding helloWorld ((toyBlock 16).BlockSize : Int)).bind
        (fun padded => CBCEncrypt scenarioCipher padded (toyBlock 16))).bind
      (fun ct => CBCDecrypt scenarioCipher ct (toyBlock 16))).bind PKCS7UnPadding
      = some helloWorld :=
  ⟨by decide, by decide, by decide,
    CBC_PKCS7_decrypt_encrypt scenarioCipher (toyBlock 16) helloWorld (by decide) (by decide)
      (fun b _ => toyBlock_inverse 16 b) (by decide)⟩

/-- C3. ECB round trip: for every block cipher of block size `bs ≥ 1` whose
`Decrypt` undoes `Encrypt` on every block of `bs` bytes and every `src` whose
length is a multiple of `bs`, the empty input included, ECBEncrypt and then
ECBDecrypt return normally and give `src` back. -/
theorem ECB_roundtrip (B : Block) (src : List Byte) (hbs : 1 ≤ B.BlockSize)
    (hinv : ∀ b : List Byte, b.length = B.BlockSize → B.Decrypt (B.Encrypt b) = b)
    (hlen : src.length % B.BlockSize = 0) :
    (ECBEncrypt src B).bind (fun ct => ECBDecrypt ct B) = some src := by
  have hk : src.length = src.length / B.BlockSize * B.BlockSize := by
    have := Nat.div_add_mod src.length B.BlockSize
    rw [hlen, Nat.add_zero, Nat.mul_comm] at this
    exact this.symm
  have hfuel : src.length / B.BlockSize ≤ src.length := Nat.div_le_self _ _
  obtain ⟨out, hout, holen⟩ := ecbLoop_length B.Encrypt B.BlockSize hbs B.Encrypt_length
    (src.length / B.BlockSize) src.length src hk hfuel
  obtain ⟨out2, hout2, hback⟩ := ecbLoop_inverse B.Encrypt B.Decrypt B.BlockSize hbs
    B.Encrypt_length hinv (src.length / B.BlockSize) src.length src.length src hk hfuel hfuel
  have heq : out2 = out := by
    rw [hout] at hout2
    exact (Option.some.inj hout2).symm
  subst heq
  unfold ECBEncrypt
  rw [hout]
  simp only [Option.some_bind]
  unfold ECBDecrypt
  rw [holen, hback]

/-- C3 at a concrete input: two blocks of three bytes; and the empty input. -/
theorem ECB_roundtrip_witness :
    (1 ≤ (toyBlock 3).BlockSize ∧
      [1, 2, 3, 4, 5, 6].length % (toyBlock 3).BlockSize = 0 ∧
      (ECBEncrypt [1, 2, 3, 4, 5, 6] (toyBlock 3)).bind (fun ct => ECBDecrypt ct (toyBlock 3))
        = some [1, 2, 3, 4, 5, 6]) ∧
    (ECBEncrypt [] (toyBlock 3)).bind (fun ct => ECBDecrypt ct (toyBlock 3)) = some [] :=
  ⟨⟨by decide, by decide,
      ECB_roundtrip (toyBlock 3) [1, 2, 3, 4, 5, 6] (by decide)
        (fun b _ => toyBlock_inverse 3 b) (by decide)⟩,
    ECB_roundtrip (toyBlock 3) [] (by decide) (fun b _ => toyBlock_inverse 3 b) (by decide)⟩

/-- C4, as stated, fails.  A buffer whose last byte is `0` is returned
unchanged, and a ten-byte buffer whose last byte is `9`, above the PKCS5 block
size of 8, is returned trimmed to one byte; neither call reports an error. -/
theorem PKCS7UnPadding_accepts_invalid_value :
    ([1, 2, 0] : List Byte).getLast? = some 0 ∧
    PKCS7UnPadding [1, 2, 0] = some [1, 2, 0] ∧
    ([7, 1, 2, 3, 4, 5, 6, 7, 8, 9] : List Byte).getLast? = some 9 ∧
    PKCS5UnPadding [7, 1, 2, 3, 4, 5, 6, 7, 8, 9] = some [7] := by
  decide

/-- C4, amended.  For every non-empty buffer whose last byte `v` is `0` or is
greater than the block size, and is at most the length of the buffer,
PKCS7UnPadding and PKCS5UnPadding return normally the first `len - v` bytes:
the buffer unchanged when `v = 0`, a strictly shorter buffer when `v`
exceeds the block size.  No padding value is rejected. -/
theorem PKCS7UnPadding_no_value_check (src : List Byte) (v : Byte) (blockSize : Nat)
    (hlast : src.getLast? = some v)
    (hbad : v.val = 0 ∨ blockSize < v.val)
    (hlen : v.val ≤ src.length) :
    PKCS7UnPadding src = some (src.take (src.length - v.val)) ∧
    PKCS5UnPadding src = some (src.take (src.length - v.val)) ∧
    ((v.val = 0 ∧ PKCS7UnPadding src = some src) ∨
      (blockSize < v.val ∧ (src.take (src.length - v.val)).length < src.length)) := by
  have hne : src ≠ [] := by
    intro h
    rw [h] at hlast
    simp at hlast
  have hpos : 0 < src.length := List.length_pos.mpr hne
  have h7 : PKCS7UnPadding src = some (src.take (src.length - v.val)) := by
    rw [PKCS7UnPadding_of_last src v hlast, if_neg (by omega)]
  refine ⟨h7, h7, ?_⟩
  rcases hbad with h0 | hv
  · left
    refine ⟨h0, ?_⟩
    rw [h7, h0, Nat.sub_zero, List.take_length]
  · right
    refine ⟨hv, ?_⟩
    rw [List.length_take]
    omega

/-- C4 amended, at concrete inputs: last byte `0` in a three-byte buffer, and
last byte `9` in a ten-byte buffer with block size 8. -/
theorem PKCS7UnPadding_no_value_check_witness :
    (([1, 2, 0] : List Byte).getLast? = some 0 ∧
      PKCS7UnPadding [1, 2, 0] = some (([1, 2, 0] : List Byte).take (3 - 0)) ∧
      PKCS5UnPadding [1, 2, 0] = some (([1, 2, 0] : List Byte).take (3 - 0))) ∧
    (([7, 1, 2, 3, 4, 5, 6, 7, 8, 9] : List Byte).getLast? = some 9 ∧
      8 < (9 : Byte).val ∧ (9 : Byte).val ≤ 10 ∧
      PKCS5UnPadding [7, 1, 2, 3, 4, 5, 6, 7, 8, 9]
        = some (([7, 1, 2, 3, 4, 5, 6, 7, 8, 9] : List Byte).take (10 - 9))) :=
  have a := PKCS7UnPadding_no_value_check [1, 2, 0] 0 8 (by decide) (Or.inl (by decide))
    (by decide)
  have b := PKCS7UnPadding_no_value_check [7, 1, 2, 3, 4, 5, 6, 7, 8, 9] 9 8 (by decide)
    (Or.inr (by decide)) (by decide)
  ⟨⟨by decide, a.1, a.2.1⟩, ⟨by decide, by decide, by decide, b.2.1⟩⟩

/-- C5, the code at the claimed inputs.  For every non-empty buffer whose
last byte `v` is greater than the length of the buffer, `trim` is negative
and the slice `src[:trim]` panics: PKCS7UnPadding returns no value, where the
claim asks for a reported InvalidPadding error and no fault. -/
theorem PKCS7UnPadding_panics_on_long_count (src : List Byte) (v : Byte)
    (hlast : src.getLast? = some v) (hlong : src.length < v.val) :
    PKCS7UnPadding src = none := by
  rw [PKCS7UnPadding_of_last src v hlast, if_pos hlong]

/-- C5 at the failing input: the one-byte buffer `[5]`. -/
theorem PKCS7UnPadding_panics_on_long_count_witness :
    ([5] : List Byte).getLast? = some 5 ∧ ([5] : List Byte).length < (5 : Byte).val ∧
    PKCS7UnPadding [5] = none :=
  ⟨by decide, by decide, PKCS7UnPadding_panics_on_long_count [5] 5 (by decide) (by decide)⟩

/-- C6, the code at the claimed inputs.  On a buffer of `n` zero bytes, for
every `n ≥ 0`, the backward scan of ZeroUnPadding finds no non-zero byte,
reaches index `-1` and panics: no value is returned, where the claim asks for
the empty byte sequence.  In particular unpadding the zero padding of the
empty plaintext panics. -/
theorem ZeroUnPadding_panics_on_zeros :
    (∀ n : Nat, ZeroUnPadding (List.replicate n (0 : Byte)) = none) ∧
    (ZeroPadding [] 8).bind ZeroUnPadding = none := by
  constructor
  · intro n
    unfold ZeroUnPadding
    rw [List.length_replicate]
    exact zeroUnPaddingLoop_zeros n n (Nat.le_refl n)
  · decide

/-- C7. PKCS7Padding definition: for every `src` and block size with
`1 ≤ size ≤ 255`, PKCS7Padding returns `src` followed by exactly `n` bytes
each of value `n`, where `n = size - (len(src) mod size)`; `1 ≤ n ≤ size`,
`n = size` when `src` is already aligned, and `src` is kept as the first
`len(src)` bytes. -/
theorem PKCS7Padding_spec (src : List Byte) (size : Int) (h1 : 1 ≤ size) (h2 : size ≤ 255) :
    ∃ (n : Nat) (b : Byte),
      (n : Int) = size - (src.length : Int) % size ∧
      b.val = n ∧
      1 ≤ n ∧ (n : Int) ≤ size ∧
      ((src.length : Int) % size = 0 → (n : Int) = size) ∧
      PKCS7Padding src size = some (src ++ List.replicate n b) ∧
      (src ++ List.replicate n b).take src.length = src := by
  obtain ⟨m, rfl⟩ := Int.eq_ofNat_of_zero_le (by omega : 0 ≤ size)
  have hm : 1 ≤ m := by omega
  have hlt : src.length % m < m := Nat.mod_lt _ (by omega)
  have hcast : ((src.length : Int) % (m : Int)) = ((src.length % m : Nat) : Int) := by
    norm_cast
  refine ⟨m - src.length % m, byteOfInt ((m - src.length % m : Nat) : Int), ?_, ?_, ?_, ?_,
    ?_, ?_, ?_⟩
  · rw [hcast]; omega
  · exact byteOfInt_natCast _ (by omega)
  · omega
  · omega
  · rw [hcast]; omega
  · exact PKCS7Padding_natCast src m hm
  · exact List.take_left _ _

/-- C7 at the scenario input: "hello world" with block size 16 gets five
trailing bytes of value `0x05`. -/
theorem PKCS7Padding_spec_witness :
    (∃ (n : Nat) (b : Byte),
      (n : Int) = 16 - (helloWorld.length : Int) % 16 ∧
      b.val = n ∧
      1 ≤ n ∧ (n : Int) ≤ 16 ∧
      ((helloWorld.length : Int) % 16 = 0 → (n : Int) = 16) ∧
      PKCS7Padding helloWorld 16 = some (helloWorld ++ List.replicate n b) ∧
      (helloWorld ++ List.replicate n b).take helloWorld.length = helloWorld) ∧
    PKCS7Padding helloWorld 16 = some (helloWorld ++ [5, 5, 5, 5, 5]) :=
  ⟨PKCS7Padding_spec helloWorld 16 (by decide) (by decide), by decide⟩

/-- C8. ZeroPadding definition: for every `src` and block size `size ≥ 1`,
ZeroPadding returns `src` followed by exactly `n` zero bytes with
`n = size - (len(src) mod size)`; `n ≥ 1`, and `n = size`, a full extra
block, when `len(src)` is already a multiple of `size`. -/
theorem ZeroPadding_spec (src : List Byte) (size : Int) (h1 : 1 ≤ size) :
    ∃ n : Nat,
      (n : Int) = size - (src.length : Int) % size ∧
      1 ≤ n ∧
      ((src.length : Int) % size = 0 → (n : Int) = size) ∧
      ZeroPadding src size = some (src ++ List.replicate n (0 : Byte)) := by
  obtain ⟨m, rfl⟩ := Int.eq_ofNat_of_zero_le (by omega : 0 ≤ size)
  have hm : 1 ≤ m := by omega
  have hlt : src.length % m < m := Nat.mod_lt _ (by omega)
  have hcast : ((src.length : Int) % (m : Int)) = ((src.length % m : Nat) : Int) := by
    norm_cast
  refine ⟨m - src.length % m, ?_, ?_, ?_, ?_⟩
  · rw [hcast]; omega
  · omega
  · rw [hcast]; omega
  · exact ZeroPadding_natCast src m hm

/-- C8 at concrete inputs: three bytes with block size 4 get one zero byte,
four bytes with block size 4 get a full block of four zero bytes. -/
theorem ZeroPadding_spec_witness :
    (∃ n : Nat,
      (n : Int) = 4 - (([1, 2, 3, 4] : List Byte).length : Int) % 4 ∧
      1 ≤ n ∧
      ((([1, 2, 3, 4] : List Byte).length : Int) % 4 = 0 → (n : Int) = 4) ∧
      ZeroPadding [1, 2, 3, 4] 4 = some ([1, 2, 3, 4] ++ List.replicate n (0 : Byte))) ∧
    ZeroPadding [1, 2, 3] 4 = some [1, 2, 3, 0] ∧
    ZeroPadding [1, 2, 3, 4] 4 = some [1, 2, 3, 4, 0, 0, 0, 0] :=
  ⟨ZeroPadding_spec [1, 2, 3, 4] 4 (by decide), by decide, by decide⟩

/-- C9. Zero padding round trip: for every non-empty plaintext `p` whose last
byte is not zero and every block size `size ≥ 1`, ZeroPadding and then
ZeroUnPadding return normally and give `p` back. -/
theorem Zero_roundtrip (p : List Byte) (v : Byte) (size : Int)
    (hlast : p.getLast? = some v) (hv : v ≠ 0) (h1 : 1 ≤ size) :
    (ZeroPadding p size).bind ZeroUnPadding = some p := by
  obtain ⟨m, rfl⟩ := Int.eq_ofNat_of_zero_le (by omega : 0 ≤ size)
  have hm : 1 ≤ m := by omega
  rw [ZeroPadding_natCast p m hm]
  simp only [Option.some_bind]
  unfold ZeroUnPadding
  rw [List.length_append, List.length_replicate]
  exact zeroUnPaddingLoop_append p v _ hlast hv _ (Nat.le_refl _)

/-- C9 at a concrete input: three bytes ending in a non-zero byte, with an
inner zero byte, block size 4. -/
theorem Zero_roundtrip_witness :
    ([9, 0, 3] : List Byte).getLast? = some 3 ∧ (3 : Byte) ≠ 0 ∧ (1 : Int) ≤ 4 ∧
    (ZeroPadding [9, 0, 3] 4).bind ZeroUnPadding = some [9, 0, 3] :=
  ⟨by decide, by decide, by decide,
    Zero_roundtrip [9, 0, 3] 3 4 (by decide) (by decide) (by decide)⟩

/-- C10. Alignment: for every plaintext `p`, the empty one included, every
block size `1 ≤ bs ≤ 255` and every block cipher of that block size,
ECBEncrypt of PKCS7Padding(p, bs) and of ZeroPadding(p, bs) returns normally
a ciphertext as long as the padded input, and that length is a positive
multiple of `bs`; with PKCS5Padding and `bs = 8` the empty plaintext gives
exactly 8 bytes. -/
theorem ECB_alignment (B : Block) (p : List Byte)
    (hbs1 : 1 ≤ B.BlockSize) (hbs2 : B.BlockSize ≤ 255) :
    (∃ padded ct, PKCS7Padding p (B.BlockSize : Int) = some padded ∧
      ECBEncrypt padded B = some ct ∧ ct.length = padded.length ∧
      0 < ct.length ∧ ct.length % B.BlockSize = 0) ∧
    (∃ padded ct, ZeroPadding p (B.BlockSize : Int) = some padded ∧
      ECBEncrypt padded B = some ct ∧ ct.length = padded.length ∧
      0 < ct.length ∧ ct.length % B.BlockSize = 0) ∧
    (B.BlockSize = 8 → ∃ padded ct, PKCS5Padding [] = some padded ∧
      ECBEncrypt padded B = some ct ∧ ct.length = 8) := by
  have key : ∀ padded : List Byte,
      (∃ q : Nat, padded.length = (q + 1) * B.BlockSize) →
      ∃ ct, ECBEncrypt padded B = some ct ∧ ct.length = padded.length ∧
        0 < ct.length ∧ ct.length % B.BlockSize = 0 := by
    intro padded hq
    obtain ⟨q, hq⟩ := hq
    have hfuel : q + 1 ≤ padded.length := by
      rw [hq]; exact Nat.le_mul_of_pos_right _ (by omega)
    obtain ⟨ct, hct, hlen⟩ := ecbLoop_length B.Encrypt B.BlockSize hbs1 B.Encrypt_length
      (q + 1) padded.length padded hq hfuel
    refine ⟨ct, hct, hlen, ?_, ?_⟩
    · omega
    · rw [hlen, hq]; exact Nat.mul_mod_left _ _
  obtain ⟨q, hq⟩ := padded_length_blocks p.length B.BlockSize hbs1
  refine ⟨?_, ?_, ?_⟩
  · obtain ⟨ct, h⟩ := key (p ++ List.replicate (B.BlockSize - p.length % B.BlockSize)
      (byteOfInt ((B.BlockSize - p.length % B.BlockSize : Nat) : Int)))
      ⟨q, by rw [List.length_append, List.length_replicate, hq]⟩
    exact ⟨_, ct, PKCS7Padding_natCast p _ hbs1, h⟩
  · obtain ⟨ct, h⟩ := key (p ++ List.replicate (B.BlockSize - p.length % B.BlockSize) (0 : Byte))
      ⟨q, by rw [List.length_append, List.length_replicate, hq]⟩
    exact ⟨_, ct, ZeroPadding_natCast p _ hbs1, h⟩
  · intro h8
    have hpad : PKCS5Padding [] = some (List.replicate 8 (8 : Byte)) := by decide
    obtain ⟨ct, hct, hlen, _, _⟩ := key (List.replicate 8 (8 : Byte))
      ⟨0, by rw [List.length_replicate, h8]⟩
    exact ⟨_, ct, hpad, hct, by rw [hlen, List.length_replicate]⟩

/-- C10 at concrete inputs: the empty plaintext under an 8-byte block cipher,
where PKCS5 padding gives eight bytes of value `0x08` and ECB gives eight
bytes of ciphertext. -/
theorem ECB_alignment_witness :
    ((∃ padded ct, PKCS7Padding [] ((toyBlock 8).BlockSize : Int) = some padded ∧
      ECBEncrypt padded (toyBlock 8) = some ct ∧ ct.length = padded.length ∧
      0 < ct.length ∧ ct.length % (toyBlock 8).BlockSize = 0) ∧
    (∃ padded ct, ZeroPadding [] ((toyBlock 8).BlockSize : Int) = some padded ∧
      ECBEncrypt padded (toyBlock 8) = some ct ∧ ct.length = padded.length ∧
      0 < ct.length ∧ ct.length % (toyBlock 8).BlockSize = 0) ∧
    ((toyBlock 8).BlockSize = 8 → ∃ padded ct, PKCS5Padding [] = some padded ∧
      ECBEncrypt padded (toyBlock 8) = some ct ∧ ct.length = 8)) ∧
    PKCS5Padding [] = some [8, 8, 8, 8, 8, 8, 8, 8] ∧
    (ECBEncrypt [8, 8, 8, 8, 8, 8, 8, 8] (toyBlock 8)).map List.length = some 8 :=
  ⟨ECB_alignment (toyBlock 8) [] (by decide) (by decide), by decide, by decide⟩

/-! ## Stream modes -/

theorem xorBytes_length_min (a b : List Byte) :
    (xorBytes a b).length = min a.length b.length := by
  simp [xorBytes]

theorem incrementLE_length : ∀ l : List Byte, (incrementLE l).length = l.length
  | [] => rfl
  | b :: rest => by
    unfold incrementLE
    split
    · rfl
    · simp [incrementLE_length rest]

theorem incrementCounter_length (ctr : List Byte) :
    (incrementCounter ctr).length = ctr.length := by
  simp [incrementCounter, incrementLE_length]

theorem goCopy_length (dst src : List Byte) : (goCopy dst src).length = dst.length := by
  simp only [goCopy, List.length_append, List.length_take, List.length_drop]
  omega

theorem keyStreamXor_nil (B : Block) (advance : List Byte → List Byte) (fuel : Nat)
    (reg : List Byte) : keyStreamXor B advance fuel reg [] = [] := by
  cases fuel <;> simp [keyStreamXor]

theorem cfbStream_nil (B : Block) (d : Bool) (fuel : Nat) (next : List Byte) :
    cfbStream B d fuel next [] = [] := by
  cases fuel <;> simp [cfbStream]

/-- Splitting `a ++ rest` at the block size gives `a` and `rest` back when `a`
is a whole block, or a shorter last block followed by nothing. -/
theorem take_drop_block (a rest : List Byte) (n : Nat)
    (h : a.length = n ∨ (a.length ≤ n ∧ rest = [])) :
    (a ++ rest).take n = a ∧ (a ++ rest).drop n = rest := by
  rcases h with h | ⟨h, rfl⟩
  · exact ⟨List.take_left' h, List.drop_left' h⟩
  · rw [List.append_nil]
    exact ⟨List.take_of_length_le h, List.drop_of_length_le h⟩

/-- The output of a keystream mode is as long as its input. -/
theorem keyStreamXor_length (B : Block) (advance : List Byte → List Byte)
    (hbs : 1 ≤ B.BlockSize)
    (hadv : ∀ r : List Byte, r.length = B.BlockSize → (advance r).length = B.BlockSize) :
    ∀ (fuel : Nat) (reg src : List Byte), reg.length = B.BlockSize → src.length ≤ fuel →
      (keyStreamXor B advance fuel reg src).length = src.length := by
  intro fuel
  induction fuel with
  | zero =>
    intro reg src _ hle
    have h0 : src = [] := List.eq_nil_of_length_eq_zero (by omega)
    subst h0
    rfl
  | succ fuel ih =>
    intro reg src hreg hle
    unfold keyStreamXor
    by_cases h0 : src.length = 0
    · rw [if_pos h0]; simp [h0]
    · rw [if_neg h0, List.length_append, xorBytes_length_min, B.Encrypt_length reg hreg,
        ih (advance reg) (src.drop B.BlockSize) (hadv reg hreg)
          (by rw [List.length_drop]; omega),
        List.length_take, List.length_drop]
      omega

/-- A keystream mode applied twice with the same register gives the input
back: the data is XORed twice with the same keystream. -/
theorem keyStreamXor_involution (B : Block) (advance : List Byte → List Byte)
    (hbs : 1 ≤ B.BlockSize)
    (hadv : ∀ r : List Byte, r.length = B.BlockSize → (advance r).length = B.BlockSize) :
    ∀ (fuel : Nat) (reg src : List Byte), reg.length = B.BlockSize → src.length ≤ fuel →
      keyStreamXor B advance fuel reg (keyStreamXor B advance fuel reg src) = src := by
  intro fuel
  induction fuel with
  | zero =>
    intro reg src _ hle
    have h0 : src = [] := List.eq_nil_of_length_eq_zero (by omega)
    subst h0
    rfl
  | succ fuel ih =>
    intro reg src hreg hle
    by_cases h0 : src.length = 0
    · have hnil : src = [] := List.eq_nil_of_length_eq_zero h0
      subst hnil
      simp [keyStreamXor]
    · have hks : (B.Encrypt reg).length = B.BlockSize := B.Encrypt_length reg hreg
      have htl : (src.take B.BlockSize).length = min B.BlockSize src.length :=
        List.length_take _ _
      have hxl : (xorBytes (src.take B.BlockSize) (B.Encrypt reg)).length
          = min B.BlockSize src.length := by
        rw [xorBytes_length_min, hks, htl]; omega
      have hdl : (src.drop B.BlockSize).length ≤ fuel := by
        rw [List.length_drop]; omega
      have hsplit := take_drop_block (xorBytes (src.take B.BlockSize) (B.Encrypt reg))
        (keyStreamXor B advance fuel (advance reg) (src.drop B.BlockSize)) B.BlockSize (by
          by_cases hge : B.BlockSize ≤ src.length
          · left; rw [hxl]; omega
          · right
            refine ⟨by rw [hxl]; omega, ?_⟩
            have : src.drop B.BlockSize = [] := List.drop_of_length_le (by omega)
            rw [this, keyStreamXor_nil])
      have hout : keyStreamXor B advance (fuel + 1) reg src
          = xorBytes (src.take B.BlockSize) (B.Encrypt reg)
            ++ keyStreamXor B advance fuel (advance reg) (src.drop B.BlockSize) := by
        conv => lhs; unfold keyStreamXor
        rw [if_neg h0]
      have hne : (keyStreamXor B advance (fuel + 1) reg src).length ≠ 0 := by
        rw [keyStreamXor_length B advance hbs hadv (fuel + 1) reg src hreg hle]
        exact h0
      conv => lhs; unfold keyStreamXor
      rw [if_neg hne, hout, hsplit.1, hsplit.2,
        ih (advance reg) (src.drop B.BlockSize) (hadv reg hreg) hdl,
        xorBytes_cancel _ _ (by rw [htl, hks]; omega), List.take_append_drop]

/-- The output of the CFB stream is as long as its input. -/
theorem cfbStream_length (B : Block) (d : Bool) (hbs : 1 ≤ B.BlockSize) :
    ∀ (fuel : Nat) (next src : List Byte), next.length = B.BlockSize → src.length ≤ fuel →
      (cfbStream B d fuel next src).length = src.length := by
  intro fuel
  induction fuel with
  | zero =>
    intro next src _ hle
    have h0 : src = [] := List.eq_nil_of_length_eq_zero (by omega)
    subst h0
    rfl
  | succ fuel ih =>
    intro next src hnext hle
    unfold cfbStream
    by_cases h0 : src.length = 0
    · rw [if_pos h0]; simp [h0]
    · rw [if_neg h0]
      simp only
      rw [List.length_append, xorBytes_length_min, B.Encrypt_length next hnext,
        ih _ (src.drop B.BlockSize) (by rw [goCopy_length, hnext])
          (by rw [List.length_drop]; omega),
        List.length_take, List.length_drop]
      omega

/-- CFB decryption undoes CFB encryption started from the same register. -/
theorem cfbStream_inverse (B : Block) (hbs : 1 ≤ B.BlockSize) :
    ∀ (fuel : Nat) (next src : List Byte), next.length = B.BlockSize → src.length ≤ fuel →
      cfbStream B true fuel next (cfbStream B false fuel next src) = src := by
  intro fuel
  induction fuel with
  | zero =>
    intro next src _ hle
    have h0 : src = [] := List.eq_nil_of_length_eq_zero (by omega)
    subst h0
    rfl
  | succ fuel ih =>
    intro next src hnext hle
    by_cases h0 : src.length = 0
    · have hnil : src = [] := List.eq_nil_of_length_eq_zero h0
      subst hnil
      simp [cfbStream]
    · have hks : (B.Encrypt next).length = B.BlockSize := B.Encrypt_length next hnext
      have htl : (src.take B.BlockSize).length = min B.BlockSize src.length :=
        List.length_take _ _
      have hxl : (xorBytes (src.take B.BlockSize) (B.Encrypt next)).length
          = min B.BlockSize src.length := by
        rw [xorBytes_length_min, hks, htl]; omega
      have hdl : (src.drop B.BlockSize).length ≤ fuel := by
        rw [List.length_drop]; omega
      have hsplit := take_drop_block (xorBytes (src.take B.BlockSize) (B.Encrypt next))
        (cfbStream B false fuel
          (goCopy next (xorBytes (src.take B.BlockSize) (B.Encrypt next)))
          (src.drop B.BlockSize)) B.BlockSize (by
          by_cases hge : B.BlockSize ≤ src.length
          · left; rw [hxl]; omega
          · right
            refine ⟨by rw [hxl]; omega, ?_⟩
            have : src.drop B.BlockSize = [] := List.drop_of_length_le (by omega)
            rw [this, cfbStream_nil])
      have hout : cfbStream B false (fuel + 1) next src
          = xorBytes (src.take B.BlockSize) (B.Encrypt next)
            ++ cfbStream B false fuel
              (goCopy next (xorBytes (src.take B.BlockSize) (B.Encrypt next)))
              (src.drop B.BlockSize) := by
        conv => lhs; unfold cfbStream
        rw [if_neg h0]
        simp
      have hne : (cfbStream B false (fuel + 1) next src).length ≠ 0 := by
        rw [cfbStream_length B false hbs (fuel + 1) next src hnext hle]
        exact h0
      conv => lhs; unfold cfbStream
      rw [if_neg hne]
      simp only [if_true]
      rw [hout, hsplit.1, hsplit.2,
        ih _ (src.drop B.BlockSize) (by rw [goCopy_length, hnext]) hdl,
        xorBytes_cancel _ _ (by rw [htl, hks]; omega), List.take_append_drop]

theorem streamChecked_of_iv (iv : List Byte) (size : Nat) (h1 : 1 ≤ size)
    (hiv : size ≤ iv.length) : streamChecked iv size = true := by
  simp only [streamChecked, Bool.and_eq_true, decide_eq_true_eq]
  exact ⟨hiv, h1⟩

theorem take_iv_length (iv : List Byte) (size : Nat) (hiv : size ≤ iv.length) :
    (iv.take size).length = size := by
  rw [List.length_take]; omega

/-! ## ECB: misaligned input, block-wise output, number of passes -/

/-- On an input that is not a whole number of blocks the ECB loop gives no
value, whatever the fuel. -/
theorem ecbLoop_misaligned (f : List Byte → List Byte) (size : Nat) :
    ∀ (fuel : Nat) (src : List Byte), src.length % size ≠ 0 →
      ecbLoop f size fuel src = none := by
  intro fuel
  induction fuel with
  | zero =>
    intro src hmod
    have h0 : src.length ≠ 0 := by
      intro h; rw [h] at hmod; simp at hmod
    simp [ecbLoop, h0]
  | succ fuel ih =>
    intro src hmod
    have h0 : src.length ≠ 0 := by
      intro h; rw [h] at hmod; simp at hmod
    unfold ecbLoop
    rw [if_neg h0]
    by_cases hlt : src.length < size
    · rw [if_pos hlt]
    · rw [if_neg hlt]
      have hdrop : (src.drop size).length % size ≠ 0 := by
        rw [List.length_drop]
        intro h
        apply hmod
        have hsub : src.length = (src.length - size) + size := by omega
        rw [hsub, Nat.add_mod_right]
        exact h
      rw [ih (src.drop size) hdrop]

/-- With fewer passes than blocks the ECB loop gives no value. -/
theorem ecbLoop_short_fuel (f : List Byte → List Byte) (size : Nat) (hsize : 1 ≤ size) :
    ∀ (fuel k : Nat) (src : List Byte), src.length = k * size → fuel < k →
      ecbLoop f size fuel src = none := by
  intro fuel
  induction fuel with
  | zero =>
    intro k src hlen hk
    obtain ⟨j, rfl⟩ : ∃ j, k = j + 1 := ⟨k - 1, by omega⟩
    have h0 : src.length ≠ 0 := by
      rw [hlen, Nat.succ_mul]; omega
    simp [ecbLoop, h0]
  | succ fuel ih =>
    intro k src hlen hk
    obtain ⟨j, rfl⟩ : ∃ j, k = j + 1 := ⟨k - 1, by omega⟩
    have hge : size ≤ src.length := by
      rw [hlen, Nat.succ_mul]; omega
    have hdrop : (src.drop size).length = j * size := by
      rw [List.length_drop, hlen, Nat.succ_mul]; omega
    unfold ecbLoop
    rw [if_neg (by omega), if_neg (by omega), ih j (src.drop size) hdrop (by omega)]

/-- On `k` whole blocks the ECB loop returns the same output for every fuel
of at least `k`, and block `i` of the output is `f` applied to block `i` of
the input. -/
theorem ecbLoop_blockwise (f : List Byte → List Byte) (size : Nat) (hsize : 1 ≤ size)
    (hf : ∀ b : List Byte, b.length = size → (f b).length = size) :
    ∀ (k : Nat) (src : List Byte), src.length = k * size →
      ∃ out, (∀ fuel : Nat, k ≤ fuel → ecbLoop f size fuel src = some out) ∧
        ∀ i : Nat, i < k →
          (out.drop (i * size)).take size = f ((src.drop (i * size)).take size) := by
  intro k
  induction k with
  | zero =>
    intro src hlen
    have h0 : src.length = 0 := by simpa using hlen
    refine ⟨[], ?_, ?_⟩
    · intro fuel _
      cases fuel <;> simp [ecbLoop, h0]
    · intro i hi; omega
  | succ k ih =>
    intro src hlen
    have hge : size ≤ src.length := by
      rw [hlen, Nat.succ_mul]; omega
    have hdrop : (src.drop size).length = k * size := by
      rw [List.length_drop, hlen, Nat.succ_mul]; omega
    obtain ⟨rest, hrest, hblocks⟩ := ih (src.drop size) hdrop
    have htake : (src.take size).length = size := by
      rw [List.length_take]; omega
    have hflen : (f (src.take size)).length = size := hf _ htake
    refine ⟨f (src.take size) ++ rest, ?_, ?_⟩
    · intro fuel hfuel
      obtain ⟨fuel, rfl⟩ : ∃ m, fuel = m + 1 := ⟨fuel - 1, by omega⟩
      unfold ecbLoop
      rw [if_neg (by omega), if_neg (by omega), hrest fuel (by omega)]
    · intro i hi
      cases i with
      | zero =>
        simp only [Nat.zero_mul, List.drop_zero]
        exact List.take_left' hflen
      | succ i =>
        have hd : (f (src.take size) ++ rest).drop ((i + 1) * size) = rest.drop (i * size) := by
          have e : (i + 1) * size = (f (src.take size)).length + i * size := by
            rw [hflen, Nat.succ_mul]; omega
          rw [e, List.drop_append]
        have hs : src.drop ((i + 1) * size) = (src.drop size).drop (i * size) := by
          rw [List.drop_drop]
          congr 1
          rw [Nat.succ_mul]; omega
        rw [hd, hs]
        exact hblocks i (by omega)

/-! ## Trailing zero bytes -/

/-- A buffer with a non-zero byte is a part ending in a non-zero byte followed
by zero bytes only. -/
theorem split_trailing_zeros (src : List Byte) (h : ∃ b ∈ src, b ≠ 0) :
    ∃ (r : List Byte) (v : Byte) (m : Nat),
      src = r ++ List.replicate m (0 : Byte) ∧ r.getLast? = some v ∧ v ≠ 0 := by
  induction src using List.reverseRecOn with
  | nil =>
    obtain ⟨b, hb, _⟩ := h
    simp at hb
  | append_singleton init x ih =>
    by_cases hx : x = 0
    · subst hx
      have hinit : ∃ b ∈ init, b ≠ 0 := by
        obtain ⟨b, hb, hne⟩ := h
        rw [List.mem_append] at hb
        rcases hb with hb | hb
        · exact ⟨b, hb, hne⟩
        · simp at hb
          exact absurd hb hne
      obtain ⟨r, v, m, hsplit, hlast, hv⟩ := ih hinit
      refine ⟨r, v, m + 1, ?_, hlast, hv⟩
      rw [hsplit, List.replicate_succ', List.append_assoc]
    · exact ⟨init ++ [x], x, 0, by simp, by simp, hx⟩

theorem byteOfInt_natCast_mod (k : Nat) : (byteOfInt (k : Int)).val = k % 256 := by
  unfold byteOfInt
  simp only
  omega

/-- A buffer of zero bytes only is returned unchanged by PKCS7UnPadding. -/
theorem PKCS7UnPadding_replicate_zero (n : Nat) (hn : 1 ≤ n) :
    PKCS7UnPadding (List.replicate n (0 : Byte)) = some (List.replicate n (0 : Byte)) := by
  obtain ⟨j, rfl⟩ : ∃ j, n = j + 1 := ⟨n - 1, by omega⟩
  have hlast : (List.replicate (j + 1) (0 : Byte)).getLast? = some 0 := by
    rw [List.replicate_succ', List.getLast?_concat]
  rw [PKCS7UnPadding_of_last _ 0 hlast]
  simp

/-! ## Claims, continued -/

/-- C11, as stated, fails.  With a 16-byte block cipher and a 10-byte input,
ECBEncrypt and CBCEncrypt end in a run-time panic: no InputNotBlockAligned
error value is returned, since no method has an error result. -/
theorem misaligned_input_panics :
    tenBytes.length = 10 ∧ (toyBlock 16).BlockSize = 16 ∧
    ECBEncrypt tenBytes (toyBlock 16) = none ∧
    CBCEncrypt scenarioCipher tenBytes (toyBlock 16) = none := by
  decide

/-- C11, amended.  For CBC and for ECB with no padding, encrypting an input
whose length is not a multiple of the block size returns no ciphertext: the
call does not return normally, so the misalignment is never silently
tolerated. -/
theorem misaligned_input_no_ciphertext (c : Cipher) (B : Block) (src : List Byte)
    (hmis : src.length % B.BlockSize ≠ 0) :
    ECBEncrypt src B = none ∧ CBCEncrypt c src B = none := by
  constructor
  · exact ecbLoop_misaligned B.Encrypt B.BlockSize src.length src hmis
  · unfold CBCEncrypt
    have hchk : cbcChecked c.iv src B.BlockSize = false := by
      simp [cbcChecked, hmis]
    rw [hchk]
    rfl

/-- C11 amended, at the scenario input: 10 bytes with a 16-byte block
cipher. -/
theorem misaligned_input_no_ciphertext_witness :
    tenBytes.length % (toyBlock 16).BlockSize ≠ 0 ∧
    ECBEncrypt tenBytes (toyBlock 16) = none ∧
    CBCEncrypt scenarioCipher tenBytes (toyBlock 16) = none :=
  ⟨by decide, misaligned_input_no_ciphertext scenarioCipher (toyBlock 16) tenBytes (by decide)⟩

/-- C12. Stream-mode round trip: for every block cipher of block size
`bs ≥ 1`, invertible or not, every IV of `bs` bytes and every input `p` of
any length, CFBDecrypt undoes CFBEncrypt, OFBDecrypt undoes OFBEncrypt and
CTRDecrypt undoes CTREncrypt, every call returning normally; for OFB and CTR
the encrypt and decrypt functions are the same function. -/
theorem stream_roundtrip (c : Cipher) (B : Block) (p : List Byte)
    (hbs : 1 ≤ B.BlockSize) (hiv : c.iv.length = B.BlockSize) :
    (CFBEncrypt c p B).bind (fun ct => CFBDecrypt c ct B) = some p ∧
    (OFBEncrypt c p B).bind (fun ct => OFBDecrypt c ct B) = some p ∧
    (CTREncrypt c p B).bind (fun ct => CTRDecrypt c ct B) = some p ∧
    OFBEncrypt = OFBDecrypt ∧ CTREncrypt = CTRDecrypt := by
  have hchk : streamChecked c.iv B.BlockSize = true :=
    streamChecked_of_iv c.iv B.BlockSize hbs (by omega)
  have hreg : (c.iv.take B.BlockSize).length = B.BlockSize :=
    take_iv_length c.iv B.BlockSize (by omega)
  refine ⟨?_, ?_, ?_, rfl, rfl⟩
  · unfold CFBEncrypt
    rw [if_pos hchk]
    simp only [Option.some_bind]
    unfold CFBDecrypt
    rw [if_pos hchk, cfbStream_length B false hbs _ _ _ hreg (Nat.le_refl _),
      cfbStream_inverse B hbs _ _ _ hreg (Nat.le_refl _)]
  · unfold OFBEncrypt
    rw [if_pos hchk]
    simp only [Option.some_bind]
    unfold OFBDecrypt
    rw [if_pos hchk,
      keyStreamXor_length B B.Encrypt hbs B.Encrypt_length _ _ _ hreg (Nat.le_refl _),
      keyStreamXor_involution B B.Encrypt hbs B.Encrypt_length _ _ _ hreg (Nat.le_refl _)]
  · unfold CTREncrypt
    rw [if_pos hchk]
    simp only [Option.some_bind]
    unfold CTRDecrypt
    have hadv : ∀ r : List Byte, r.length = B.BlockSize →
        (incrementCounter r).length = B.BlockSize := by
      intro r hr
      rw [incrementCounter_length, hr]
    rw [if_pos hchk,
      keyStreamXor_length B incrementCounter hbs hadv _ _ _ hreg (Nat.le_refl _),
      keyStreamXor_involution B incrementCounter hbs hadv _ _ _ hreg (Nat.le_refl _)]

/-- C12 at a concrete input: 13 bytes, a 16-byte IV and a 16-byte block
cipher whose `Encrypt` is not invertible. -/
theorem stream_roundtrip_witness :
    (lossyBlock 16).Encrypt [0] = (lossyBlock 16).Encrypt [128] ∧
    1 ≤ (lossyBlock 16).BlockSize ∧ scenarioCipher.iv.length = (lossyBlock 16).BlockSize ∧
    ((CFBEncrypt scenarioCipher thirteenBytes (lossyBlock 16)).bind
        (fun ct => CFBDecrypt scenarioCipher ct (lossyBlock 16)) = some thirteenBytes ∧
      (OFBEncrypt scenarioCipher thirteenBytes (lossyBlock 16)).bind
        (fun ct => OFBDecrypt scenarioCipher ct (lossyBlock 16)) = some thirteenBytes ∧
      (CTREncrypt scenarioCipher thirteenBytes (lossyBlock 16)).bind
        (fun ct => CTRDecrypt scenarioCipher ct (lossyBlock 16)) = some thirteenBytes ∧
      OFBEncrypt = OFBDecrypt ∧ CTREncrypt = CTRDecrypt) :=
  ⟨by decide, by decide, by decide,
    stream_roundtrip scenarioCipher (lossyBlock 16) thirteenBytes (by decide) (by decide)⟩

/-- C13. Stream transparency: for CFBEncrypt, OFBEncrypt and CTREncrypt, every
block cipher (block size at least one), every IV of block-size bytes and
every plaintext `p`, the call returns normally a ciphertext of exactly
`len(p)` bytes. -/
theorem stream_length (c : Cipher) (B : Block) (p : List Byte)
    (hbs : 1 ≤ B.BlockSize) (hiv : c.iv.length = B.BlockSize) :
    (∃ ct, CFBEncrypt c p B = some ct ∧ ct.length = p.length) ∧
    (∃ ct, OFBEncrypt c p B = some ct ∧ ct.length = p.length) ∧
    (∃ ct, CTREncrypt c p B = some ct ∧ ct.length = p.length) := by
  have hchk : streamChecked c.iv B.BlockSize = true :=
    streamChecked_of_iv c.iv B.BlockSize hbs (by omega)
  have hreg : (c.iv.take B.BlockSize).length = B.BlockSize :=
    take_iv_length c.iv B.BlockSize (by omega)
  have hadv : ∀ r : List Byte, r.length = B.BlockSize →
      (incrementCounter r).length = B.BlockSize := by
    intro r hr
    rw [incrementCounter_length, hr]
  refine ⟨⟨_, ?_, cfbStream_length B false hbs _ _ _ hreg (Nat.le_refl _)⟩,
    ⟨_, ?_, keyStreamXor_length B B.Encrypt hbs B.Encrypt_length _ _ _ hreg (Nat.le_refl _)⟩,
    ⟨_, ?_, keyStreamXor_length B incrementCounter hbs hadv _ _ _ hreg (Nat.le_refl _)⟩⟩
  · unfold CFBEncrypt; rw [if_pos hchk]
  · unfold OFBEncrypt; rw [if_pos hchk]
  · unfold CTREncrypt; rw [if_pos hchk]

/-- C13 at the scenario input: 13 bytes in, 13 bytes out, with a 16-byte
block cipher in CTR mode. -/
theorem stream_length_witness :
    (1 ≤ (toyBlock 16).BlockSize ∧ scenarioCipher.iv.length = (toyBlock 16).BlockSize ∧
      thirteenBytes.length = 13 ∧
      (CTREncrypt scenarioCipher thirteenBytes (toyBlock 16)).map List.length = some 13) ∧
    ((∃ ct, CFBEncrypt scenarioCipher thirteenBytes (toyBlock 16) = some ct ∧
        ct.length = thirteenBytes.length) ∧
      (∃ ct, OFBEncrypt scenarioCipher thirteenBytes (toyBlock 16) = some ct ∧
        ct.length = thirteenBytes.length) ∧
      (∃ ct, CTREncrypt scenarioCipher thirteenBytes (toyBlock 16) = some ct ∧
        ct.length = thirteenBytes.length)) :=
  ⟨⟨by decide, by decide, by decide, by decide⟩,
    stream_length scenarioCipher (toyBlock 16) thirteenBytes (by decide) (by decide)⟩

/-- C14, as stated, fails.  A 17-byte IV with a 16-byte block cipher is
accepted: CBCEncrypt returns a ciphertext, the one obtained with the first 16
bytes of the IV, and CTREncrypt returns a ciphertext as well. -/
theorem long_IV_accepted :
    longIVCipher.iv.length = 17 ∧ (toyBlock 16).BlockSize = 16 ∧
    longIVCipher.iv.take 16 = scenarioCipher.iv ∧
    CBCEncrypt longIVCipher scenarioIV (toyBlock 16)
      = some (List.replicate 16 (165 : Byte)) ∧
    CBCEncrypt longIVCipher scenarioIV (toyBlock 16)
      = CBCEncrypt scenarioCipher scenarioIV (toyBlock 16) ∧
    (CTREncrypt longIVCipher thirteenBytes (toyBlock 16)).isSome = true := by
  decide

/-- C14, amended.  For CBC, CFB, OFB and CTR an IV longer than the block size
is accepted: only its first block-size bytes are used, so the result is the
one obtained with the IV cut to the block size; the three stream modes return
a ciphertext for every input and CBC for every input of whole blocks. -/
theorem long_IV_truncated (c : Cipher) (B : Block) (src : List Byte)
    (hbs : 1 ≤ B.BlockSize) (hiv : B.BlockSize < c.iv.length) :
    CBCEncrypt c src B = CBCEncrypt { c with iv := c.iv.take B.BlockSize } src B ∧
    CFBEncrypt c src B = CFBEncrypt { c with iv := c.iv.take B.BlockSize } src B ∧
    OFBEncrypt c src B = OFBEncrypt { c with iv := c.iv.take B.BlockSize } src B ∧
    CTREncrypt c src B = CTREncrypt { c with iv := c.iv.take B.BlockSize } src B ∧
    (∃ ct, CFBEncrypt c src B = some ct) ∧
    (∃ ct, OFBEncrypt c src B = some ct) ∧
    (∃ ct, CTREncrypt c src B = some ct) ∧
    (src.length % B.BlockSize = 0 → ∃ ct, CBCEncrypt c src B = some ct) := by
  have hreg : (c.iv.take B.BlockSize).length = B.BlockSize :=
    take_iv_length c.iv B.BlockSize (by omega)
  have hchk : streamChecked c.iv B.BlockSize = true :=
    streamChecked_of_iv c.iv B.BlockSize hbs (by omega)
  have hchk2 : streamChecked (c.iv.take B.BlockSize) B.BlockSize = true :=
    streamChecked_of_iv _ B.BlockSize hbs (by omega)
  have hcbc : cbcChecked (c.iv.take B.BlockSize) src B.BlockSize
      = cbcChecked c.iv src B.BlockSize := by
    unfold cbcChecked
    rw [hreg]
    have h1 : decide (B.BlockSize ≤ B.BlockSize) = true := by simp
    have h2 : decide (B.BlockSize ≤ c.iv.length) = true := by
      simp only [decide_eq_true_eq]; omega
    rw [h1, h2]
  have htt : (c.iv.take B.BlockSize).take B.BlockSize = c.iv.take B.BlockSize := by
    rw [List.take_take, Nat.min_self]
  refine ⟨?_, ?_, ?_, ?_, ?_, ?_, ?_, ?_⟩
  · simp only [CBCEncrypt, hcbc, htt]
  · simp only [CFBEncrypt, hchk, hchk2, htt]
  · simp only [OFBEncrypt, hchk, hchk2, htt]
  · simp only [CTREncrypt, hchk, hchk2, htt]
  · exact ⟨_, by unfold CFBEncrypt; rw [if_pos hchk]⟩
  · exact ⟨_, by unfold OFBEncrypt; rw [if_pos hchk]⟩
  · exact ⟨_, by unfold CTREncrypt; rw [if_pos hchk]⟩
  · intro hal
    have hc : cbcChecked c.iv src B.BlockSize = true := by
      unfold cbcChecked
      simp only [Bool.and_eq_true, decide_eq_true_eq]
      exact ⟨⟨by omega, hbs⟩, hal⟩
    exact ⟨_, by unfold CBCEncrypt; rw [if_pos hc]⟩

/-- C14 amended, at a concrete input: a 17-byte IV, a 16-byte block cipher
and a 16-byte input. -/
theorem long_IV_truncated_witness :
    1 ≤ (toyBlock 16).BlockSize ∧ (toyBlock 16).BlockSize < longIVCipher.iv.length ∧
    CBCEncrypt longIVCipher scenarioIV (toyBlock 16)
      = CBCEncrypt { longIVCipher with iv := longIVCipher.iv.take (toyBlock 16).BlockSize }
          scenarioIV (toyBlock 16) ∧
    (∃ ct, CTREncrypt longIVCipher scenarioIV (toyBlock 16) = some ct) :=
  have h := long_IV_truncated longIVCipher (toyBlock 16) scenarioIV (by decide) (by decide)
  ⟨by decide, by decide, h.1, h.2.2.2.2.2.2.1⟩

/-- C15. PKCS5 is PKCS7 at block size 8: for every `src`, PKCS5Padding is
PKCS7Padding with size 8 and PKCS5UnPadding is PKCS7UnPadding; PKCS5Padding
of the empty input is exactly eight bytes of value `0x08`, and unpadding the
PKCS5 padding of `src` returns normally and gives `src` back. -/
theorem PKCS5_is_PKCS7_at_8 :
    (∀ src : List Byte, PKCS5Padding src = PKCS7Padding src 8) ∧
    (∀ src : List Byte, PKCS5UnPadding src = PKCS7UnPadding src) ∧
    PKCS5Padding [] = some [8, 8, 8, 8, 8, 8, 8, 8] ∧
    (∀ src : List Byte, (PKCS5Padding src).bind PKCS5UnPadding = some src) := by
  refine ⟨fun _ => rfl, fun _ => rfl, by decide, ?_⟩
  intro src
  have hlt : src.length % 8 < 8 := Nat.mod_lt _ (by decide)
  have hpad := PKCS7Padding_natCast src 8 (by decide)
  unfold PKCS5Padding PKCS5UnPadding
  have e : ((8 : Nat) : Int) = (8 : Int) := rfl
  rw [e] at hpad
  rw [hpad]
  simp only [Option.some_bind]
  exact PKCS7UnPadding_append_replicate _ _ _ (by omega) (byteOfInt_natCast _ (by omega))

/-- C16. ECB is block-wise and deterministic: for every block cipher of block
size `bs ≥ 1` and every `src` of `k` whole blocks, ECBEncrypt returns
normally, block `i` of the ciphertext is `Encrypt` of block `i` of `src` for
every `i < k`, equal input blocks give equal ciphertext blocks, and the loop
makes exactly `k` passes: `k` passes give the result and fewer do not. -/
theorem ECB_blockwise (B : Block) (src : List Byte) (k : Nat)
    (hbs : 1 ≤ B.BlockSize) (hlen : src.length = k * B.BlockSize) :
    ∃ ct, ECBEncrypt src B = some ct ∧
      (∀ i : Nat, i < k →
        (ct.drop (i * B.BlockSize)).take B.BlockSize
          = B.Encrypt ((src.drop (i * B.BlockSize)).take B.BlockSize)) ∧
      (∀ i j : Nat, i < k → j < k →
        (src.drop (i * B.BlockSize)).take B.BlockSize
          = (src.drop (j * B.BlockSize)).take B.BlockSize →
        (ct.drop (i * B.BlockSize)).take B.BlockSize
          = (ct.drop (j * B.BlockSize)).take B.BlockSize) ∧
      ecbLoop B.Encrypt B.BlockSize k src = some ct ∧
      (∀ fuel : Nat, fuel < k → ecbLoop B.Encrypt B.BlockSize fuel src = none) := by
  obtain ⟨ct, hct, hblocks⟩ :=
    ecbLoop_blockwise B.Encrypt B.BlockSize hbs B.Encrypt_length k src hlen
  have hfuel : k ≤ src.length := by
    rw [hlen]; exact Nat.le_mul_of_pos_right _ (by omega)
  refine ⟨ct, hct src.length hfuel, hblocks, ?_, hct k (Nat.le_refl k), ?_⟩
  · intro i j hi hj heq
    rw [hblocks i hi, hblocks j hj, heq]
  · intro fuel hlt
    exact ecbLoop_short_fuel B.Encrypt B.BlockSize hbs fuel k src hlen hlt

/-- C16 at a concrete input: two equal blocks of three bytes give two equal
ciphertext blocks. -/
theorem ECB_blockwise_witness :
    (1 ≤ (toyBlock 3).BlockSize ∧
      ([1, 2, 3, 1, 2, 3] : List Byte).length = 2 * (toyBlock 3).BlockSize ∧
      ECBEncrypt [1, 2, 3, 1, 2, 3] (toyBlock 3) = some [166, 167, 164, 166, 167, 164]) ∧
    (∃ ct, ECBEncrypt [1, 2, 3, 1, 2, 3] (toyBlock 3) = some ct ∧
      (∀ i : Nat, i < 2 →
        (ct.drop (i * (toyBlock 3).BlockSize)).take (toyBlock 3).BlockSize
          = (toyBlock 3).Encrypt ((([1, 2, 3, 1, 2, 3] : List Byte).drop
              (i * (toyBlock 3).BlockSize)).take (toyBlock 3).BlockSize)) ∧
      (∀ i j : Nat, i < 2 → j < 2 →
        (([1, 2, 3, 1, 2, 3] : List Byte).drop (i * (toyBlock 3).BlockSize)).take
            (toyBlock 3).BlockSize
          = (([1, 2, 3, 1, 2, 3] : List Byte).drop (j * (toyBlock 3).BlockSize)).take
            (toyBlock 3).BlockSize →
        (ct.drop (i * (toyBlock 3).BlockSize)).take (toyBlock 3).BlockSize
          = (ct.drop (j * (toyBlock 3).BlockSize)).take (toyBlock 3).BlockSize) ∧
      ecbLoop (toyBlock 3).Encrypt (toyBlock 3).BlockSize 2 [1, 2, 3, 1, 2, 3] = some ct ∧
      (∀ fuel : Nat, fuel < 2 →
        ecbLoop (toyBlock 3).Encrypt (toyBlock 3).BlockSize fuel [1, 2, 3, 1, 2, 3] = none)) :=
  ⟨⟨by decide, by decide, by decide⟩,
    ECB_blockwise (toyBlock 3) [1, 2, 3, 1, 2, 3] 2 (by decide) (by decide)⟩

/-- C17. ZeroUnPadding definition and documented loss: for every buffer `p`
that contains a non-zero byte, `p` is a part `r` ending in a non-zero byte
followed by `m` zero bytes, and ZeroUnPadding returns `r`: all trailing zero
bytes removed, nothing else changed.  For every block size of at least one,
ZeroPadding and then ZeroUnPadding return the same `r`; when `p` ends in a
zero byte, `m ≥ 1` and `r` is not `p`. -/
theorem ZeroUnPadding_strips_trailing_zeros (p : List Byte) (size : Int)
    (hnz : ∃ b ∈ p, b ≠ 0) :
    ∃ (r : List Byte) (v : Byte) (m : Nat),
      p = r ++ List.replicate m (0 : Byte) ∧ r.getLast? = some v ∧ v ≠ 0 ∧
      ZeroUnPadding p = some r ∧
      (1 ≤ size → (ZeroPadding p size).bind ZeroUnPadding = some r) ∧
      (p.getLast? = some 0 → 1 ≤ m ∧ r ≠ p) := by
  obtain ⟨r, v, m, hsplit, hlast, hv⟩ := split_trailing_zeros p hnz
  refine ⟨r, v, m, hsplit, hlast, hv, ?_, ?_, ?_⟩
  · unfold ZeroUnPadding
    rw [hsplit, List.length_append, List.length_replicate]
    exact zeroUnPaddingLoop_append r v m hlast hv m (Nat.le_refl m)
  · intro h1
    obtain ⟨n, rfl⟩ := Int.eq_ofNat_of_zero_le (by omega : 0 ≤ size)
    rw [ZeroPadding_natCast p n (by omega)]
    simp only [Option.some_bind]
    unfold ZeroUnPadding
    have hjoin : p ++ List.replicate (n - p.length % n) (0 : Byte)
        = r ++ List.replicate (m + (n - p.length % n)) (0 : Byte) := by
      rw [List.replicate_add, ← List.append_assoc, ← hsplit]
    rw [hjoin, List.length_append, List.length_replicate]
    exact zeroUnPaddingLoop_append r v _ hlast hv _ (Nat.le_refl _)
  · intro hzero
    have hm : 1 ≤ m := by
      rcases Nat.eq_zero_or_pos m with h0 | hpos
      · exfalso
        rw [h0, List.replicate_zero, List.append_nil] at hsplit
        rw [hsplit, hlast] at hzero
        exact hv (Option.some.inj hzero)
      · exact hpos
    refine ⟨hm, ?_⟩
    intro heq
    have hl : p.length = r.length + m := by
      rw [hsplit, List.length_append, List.length_replicate]
    rw [heq] at hl
    omega

/-- C17 at a concrete input: a plaintext with a non-zero byte that ends in
two zero bytes loses them through zero padding with block size 4. -/
theorem ZeroUnPadding_strips_trailing_zeros_witness :
    ((∃ b ∈ ([9, 0, 3, 0, 0] : List Byte), b ≠ 0) ∧
      ZeroUnPadding [9, 0, 3, 0, 0] = some [9, 0, 3] ∧
      (ZeroPadding [9, 0, 3, 0, 0] 4).bind ZeroUnPadding = some [9, 0, 3]) ∧
    (∃ (r : List Byte) (v : Byte) (m : Nat),
      ([9, 0, 3, 0, 0] : List Byte) = r ++ List.replicate m (0 : Byte) ∧
      r.getLast? = some v ∧ v ≠ 0 ∧
      ZeroUnPadding [9, 0, 3, 0, 0] = some r ∧
      ((1 : Int) ≤ 4 → (ZeroPadding [9, 0, 3, 0, 0] 4).bind ZeroUnPadding = some r) ∧
      (([9, 0, 3, 0, 0] : List Byte).getLast? = some 0 → 1 ≤ m ∧ r ≠ [9, 0, 3, 0, 0])) :=
  ⟨⟨⟨9, by decide, by decide⟩, by decide, by decide⟩,
    ZeroUnPadding_strips_trailing_zeros [9, 0, 3, 0, 0] 4 ⟨9, by decide, by decide⟩⟩

/-- C18. PKCS7UnPadding looks only at the last byte: for every non-empty
buffer whose last byte `v` is at most the length of the buffer, the result is
exactly the first `len - v` bytes, whatever the other removed bytes are; two
buffers with the same last byte that agree on their first `len - v` bytes
unpad to the same result. -/
theorem PKCS7UnPadding_only_last_byte (a b : List Byte) (v : Byte)
    (ha : a.getLast? = some v) (hb : b.getLast? = some v)
    (hva : v.val ≤ a.length) (hvb : v.val ≤ b.length)
    (hagree : a.take (a.length - v.val) = b.take (b.length - v.val)) :
    PKCS7UnPadding a = some (a.take (a.length - v.val)) ∧
    PKCS7UnPadding a = PKCS7UnPadding b := by
  have h1 : PKCS7UnPadding a = some (a.take (a.length - v.val)) := by
    rw [PKCS7UnPadding_of_last a v ha, if_neg (by omega)]
  have h2 : PKCS7UnPadding b = some (b.take (b.length - v.val)) := by
    rw [PKCS7UnPadding_of_last b v hb, if_neg (by omega)]
  exact ⟨h1, by rw [h1, h2, hagree]⟩

/-- C18 at a concrete input: two six-byte buffers ending in `3` whose other
two removed bytes differ and are not `3`. -/
theorem PKCS7UnPadding_only_last_byte_witness :
    ([1, 2, 3, 7, 9, 3] : List Byte).getLast? = some 3 ∧
    ([1, 2, 3, 0, 0, 3] : List Byte).getLast? = some 3 ∧
    PKCS7UnPadding [1, 2, 3, 7, 9, 3] = some (([1, 2, 3, 7, 9, 3] : List Byte).take (6 - 3)) ∧
    PKCS7UnPadding [1, 2, 3, 7, 9, 3] = PKCS7UnPadding [1, 2, 3, 0, 0, 3] :=
  ⟨by decide, by decide,
    PKCS7UnPadding_only_last_byte [1, 2, 3, 7, 9, 3] [1, 2, 3, 0, 0, 3] 3 (by decide)
      (by decide) (by decide) (by decide) (by decide)⟩

/-- C19. Pad-count byte truncation: for every block size of at least one,
PKCS7Padding appends `n = size - (len(src) mod size)` bytes whose value is
`n mod 256`.  With `size = 256` and the empty `src` it returns 256 bytes of
value 0, and PKCS7UnPadding returns those 256 bytes unchanged rather than the
empty input. -/
theorem PKCS7_pad_count_truncated (src : List Byte) (size : Int) (h1 : 1 ≤ size) :
    (∃ (n : Nat) (b : Byte),
      (n : Int) = size - (src.length : Int) % size ∧
      b.val = n % 256 ∧
      PKCS7Padding src size = some (src ++ List.replicate n b)) ∧
    PKCS7Padding [] 256 = some (List.replicate 256 (0 : Byte)) ∧
    PKCS7UnPadding (List.replicate 256 (0 : Byte)) = some (List.replicate 256 (0 : Byte)) ∧
    (PKCS7Padding [] 256).bind PKCS7UnPadding ≠ some [] := by
  have hgen : ∃ (n : Nat) (b : Byte),
      (n : Int) = size - (src.length : Int) % size ∧
      b.val = n % 256 ∧
      PKCS7Padding src size = some (src ++ List.replicate n b) := by
    obtain ⟨m, rfl⟩ := Int.eq_ofNat_of_zero_le (by omega : 0 ≤ size)
    have hm : 1 ≤ m := by omega
    have hlt : src.length % m < m := Nat.mod_lt _ (by omega)
    have hcast : ((src.length : Int) % (m : Int)) = ((src.length % m : Nat) : Int) := by
      norm_cast
    refine ⟨m - src.length % m, byteOfInt ((m - src.length % m : Nat) : Int), ?_, ?_, ?_⟩
    · rw [hcast]; omega
    · exact byteOfInt_natCast_mod _
    · exact PKCS7Padding_natCast src m hm
  have hpad : PKCS7Padding [] 256 = some (List.replicate 256 (0 : Byte)) := by
    have h := PKCS7Padding_natCast [] 256 (by decide)
    have e : ((256 : Nat) : Int) = (256 : Int) := rfl
    rw [e] at h
    rw [h]
    have hb : byteOfInt (((256 - ([] : List Byte).length % 256 : Nat)) : Int) = (0 : Byte) := by
      decide
    rw [hb]
    rfl
  have hun : PKCS7UnPadding (List.replicate 256 (0 : Byte))
      = some (List.replicate 256 (0 : Byte)) :=
    PKCS7UnPadding_replicate_zero 256 (by decide)
  refine ⟨hgen, hpad, hun, ?_⟩
  rw [hpad]
  simp only [Option.some_bind]
  rw [hun]
  intro h
  have hlen := congrArg List.length (Option.some.inj h)
  rw [List.length_replicate, List.length_nil] at hlen
  exact absurd hlen (by decide)

/-- C19 at the failing input: block size 256 and the empty `src`. -/
theorem PKCS7_pad_count_truncated_witness :
    (1 : Int) ≤ 256 ∧
    ((∃ (n : Nat) (b : Byte),
      (n : Int) = 256 - (([] : List Byte).length : Int) % 256 ∧
      b.val = n % 256 ∧
      PKCS7Padding [] 256 = some ([] ++ List.replicate n b)) ∧
    PKCS7Padding [] 256 = some (List.replicate 256 (0 : Byte)) ∧
    PKCS7UnPadding (List.replicate 256 (0 : Byte)) = some (List.replicate 256 (0 : Byte)) ∧
    (PKCS7Padding [] 256).bind PKCS7UnPadding ≠ some []) :=
  ⟨by decide, PKCS7_pad_count_truncated [] 256 (by decide)⟩

end Dongle
